import Mathlib

/-!
# Verification of the record store command-line tool (`main.go`)

The program keeps records `{id, email, age}` as a JSON array in one file and
offers four operations (`list`, `add`, `findById`, `remove`) behind a flag
dispatcher.  This development embeds the handlers and the dispatcher of
`main.go` as Lean functions over an explicit file-system state and proves the
properties its specification states.

Modelling conventions.

* Go `string` and `[]byte` values are Lean `String`s: contents, arguments and
  messages are texts, `len(b) != 0` is `b ≠ ""`, offsets count characters.
* The standard library is not part of the repository.  `os` is modelled by a
  small file-system state (`World`): a path holds nothing, a regular file, or
  something that cannot be opened; opening can fail, and once a file is open,
  reading, writing, truncating and seeking succeed.  Every call is logged, so
  that "no file is touched" is the statement that the state and the log are
  unchanged.
* `encoding/json` is a parameter (`Json`); what the proofs use of it on `Item`
  and `[]Item` is collected in `Json.Lawful`.  One concrete codec, `refJson`,
  is defined and proved lawful; the claims are evaluated with it on sample data.
* `io.Writer` is the text written so far; `writer.Write b` appends `b`.
* An `error` is its message together with the package that made it.
-/

namespace Homework8

/-! ## Constants of `main.go` -/

def OperationFlag : String := "operation"
def ItemFlag : String := "item"
def IdFlag : String := "id"
def FileNameFlag : String := "fileName"

/-- The text of `errors.New("-%s flag has to be specified")`. -/
def ErrorNoFlag : String := "-%s flag has to be specified"
/-- The text of `errors.New("Operation %s not allowed!")`. -/
def ErrorInvalidOperation : String := "Operation %s not allowed!"
/-- The text of `errors.New("Item with id %s already exists")`. -/
def ErrorExistingItem : String := "Item with id %s already exists"
/-- The text of `errors.New("Item with id %s not found")`. -/
def ErrorItemNotFound : String := "Item with id %s not found"

def ListOperation : String := "list"
def AddOperation : String := "add"
def FindByIdOperation : String := "findById"
def RemoveOperation : String := "remove"

/-! ## Data model -/

/-- The type `Arguments` is `map[string]string`: a partial map from flag name to value. -/
abbrev Arguments := String → Option String

/-- Indexing a Go map: an absent key yields the zero value `""`. -/
def Arguments.get (args : Arguments) (key : String) : String :=
  (args key).getD ""

/-- A Go `int` on a 64-bit platform. -/
abbrev GoInt := { n : Int // -9223372036854775808 ≤ n ∧ n ≤ 9223372036854775807 }

/-- The struct `Item`. -/
structure Item where
  Id : String
  Email : String
  Age : GoInt
deriving DecidableEq

/-- Where an `error` value was made: by `fmt.Errorf` in `main.go`, by package
`os`, or by package `encoding/json`; each carries its message. -/
inductive Error where
  | fmt (text : String)
  | os (text : String)
  | json (text : String)
deriving DecidableEq

/-! ## `fmt.Errorf` with one `%s` verb -/

/-- Formatting with one string operand: the text before the first `%s` verb is
copied, the verb is replaced by the operand, the rest is copied.  All four
formats of `main.go` hold exactly one `%s` and no other verb. -/
def fmtVerbS : List Char → List Char → List Char
  | [], _ => []
  | c :: rest, a =>
    if c = '%' then
      match rest with
      | d :: rest2 => if d = 's' then a ++ rest2 else c :: fmtVerbS rest a
      | [] => [c]
    else c :: fmtVerbS rest a

/-- The message of `fmt.Errorf(format, a)` for a string operand `a`. -/
def fmt.Errorf (format : String) (a : String) : String :=
  ⟨fmtVerbS format.data a.data⟩

/-! ## `encoding/json`, as used on `Item` and `[]Item` -/

/-- The four uses of `encoding/json` in `main.go`.  `unmarshalItem` is
`json.Unmarshal(data, &item)` into a zero `Item`, `unmarshalItems` is
`json.Unmarshal(data, &items)` into a nil slice (a failure carries the
message), `marshalItem` is `json.Marshal` of an `Item` and `marshalItems` of a
non-nil `[]Item`; marshalling these types cannot fail. -/
structure Json where
  unmarshalItem : String → Except String Item
  unmarshalItems : String → Except String (List Item)
  marshalItem : Item → String
  marshalItems : List Item → String

/-- What the proofs use of `encoding/json`: decoding the encoding of a
sequence gives the sequence back, empty input is rejected ("unexpected end of
JSON input"), and an encoding is never empty. -/
structure Json.Lawful (J : Json) : Prop where
  roundtrip : ∀ s : List Item, J.unmarshalItems (J.marshalItems s) = .ok s
  empty_input : ∀ s : List Item, J.unmarshalItems "" ≠ .ok s
  marshal_ne : ∀ s : List Item, J.marshalItems s ≠ ""

/-! ## Package `os`: files, handles and the calls made on them -/

/-- What is found at a path: nothing (and a file can be created there), a
regular file with its content, or something that cannot be opened. -/
inductive Node where
  | absent
  | file (content : String)
  | blocked
deriving DecidableEq

/-- A call into package `os`, recorded in order. -/
inductive Event where
  | readFile (name : String)
  | openFile (name : String)
  | readAll (name : String)
  | write (name : String)
  | truncate (name : String)
  | seek (name : String)
  | close (name : String)
deriving DecidableEq

/-- The file system and the log of calls made on it. -/
structure World where
  files : String → Node
  trace : List Event

/-- An open `*os.File`: its path and its read/write offset. -/
structure File where
  name : String
  offset : Nat

def World.log (w : World) (e : Event) : World :=
  { w with trace := w.trace ++ [e] }

/-- The content of the regular file at a path (empty when there is none). -/
def World.content (w : World) (name : String) : String :=
  match w.files name with
  | .file c => c
  | _ => ""

def World.setContent (w : World) (name : String) (c : String) : World :=
  { w with files := Function.update w.files name (.file c) }

/-- The call `os.ReadFile(name)`. -/
def os.ReadFile (w : World) (name : String) : Except Error String × World :=
  match w.files name with
  | .file c => (.ok c, w.log (.readFile name))
  | _ => (.error (.os ("open " ++ name)), w.log (.readFile name))

/-- The call `os.OpenFile(name, os.O_RDWR|os.O_CREATE, perm)`: an absent file is
created empty; the handle starts at offset 0. -/
def os.OpenFile (w : World) (name : String) : Except Error File × World :=
  match w.files name with
  | .file _ => (.ok ⟨name, 0⟩, w.log (.openFile name))
  | .absent => (.ok ⟨name, 0⟩, (w.setContent name "").log (.openFile name))
  | .blocked => (.error (.os ("open " ++ name)), w.log (.openFile name))

/-- The call `ioutil.ReadAll(f)`: the content from the offset to the end; the
offset moves to the end. -/
def File.ReadAll (w : World) (f : File) : String × File × World :=
  let c := w.content f.name
  (⟨c.data.drop f.offset⟩, { f with offset := max f.offset c.data.length }, w.log (.readAll f.name))

/-- The call `f.Write(b)`: `b` replaces the content from the offset on (a gap
before the offset is filled with NUL), the offset moves past it. -/
def File.Write (w : World) (f : File) (b : String) : File × World :=
  let c := (w.content f.name).data
  let gap := List.replicate (f.offset - c.length) (Char.ofNat 0)
  let c2 : String := ⟨c.take f.offset ++ gap ++ b.data ++ c.drop (f.offset + b.data.length)⟩
  ({ f with offset := f.offset + b.data.length }, (w.setContent f.name c2).log (.write f.name))

/-- The call `f.Truncate(0)`: the content becomes empty, the offset stays. -/
def File.Truncate0 (w : World) (f : File) : World :=
  (w.setContent f.name "").log (.truncate f.name)

/-- The call `f.Seek(0, 0)`: the offset becomes 0. -/
def File.Seek0 (w : World) (f : File) : File × World :=
  ({ f with offset := 0 }, w.log (.seek f.name))

/-- The deferred `f.Close()`. -/
def File.Close (w : World) (f : File) : World :=
  w.log (.close f.name)

/-! ## The handlers -/

/-- What a handler leaves behind: its `error` result (`none` is `nil`), the
text on the writer, and the file system. -/
structure Result where
  err : Option Error
  writer : String
  world : World

def Arguments.isArgsPresent (args : Arguments) (arg : String) : Bool :=
  match args arg with
  | some argVal => argVal ≠ ""
  | none => false

/-- The function `parseArgs`: each `*flag.String(name, "", usage)` is read where
the flag is defined and `flag.Parse` is never called, so every one of the four
entries holds the default `""`. -/
def parseArgs : Arguments :=
  fun key =>
    if key = OperationFlag ∨ key = ItemFlag ∨ key = IdFlag ∨ key = FileNameFlag then some ""
    else none

def operationList (w : World) (fileName : String) (writer : String) : Result :=
  match os.ReadFile w fileName with
  | (.error err, w1) => ⟨some err, writer, w1⟩
  | (.ok file, w1) => ⟨none, writer ++ file, w1⟩

def operationFindById (id : String) : List Item → Option Item
  | [] => none
  | item :: items => if item.Id = id then some item else operationFindById id items

def operationAdd (J : Json) (w : World) (fileName : String) (itemStr : String)
    (writer : String) : Result :=
  match J.unmarshalItem itemStr with
  | .error msg => ⟨some (.json msg), writer, w⟩
  | .ok item =>
    match os.OpenFile w fileName with
    | (.error err, w1) => ⟨some err, writer, w1⟩
    | (.ok f, w1) =>
      match File.ReadAll w1 f with
      | (itemsJsonByte, f1, w2) =>
        match (if itemsJsonByte ≠ "" then J.unmarshalItems itemsJsonByte else .ok []) with
        | .error msg => ⟨some (.json msg), writer, File.Close w2 f1⟩
        | .ok items =>
          match operationFindById item.Id items with
          | some _ =>
            ⟨none, writer ++ fmt.Errorf ErrorExistingItem item.Id, File.Close w2 f1⟩
          | none =>
            match File.Write w2 f1 (J.marshalItems (items ++ [item])) with
            | (f2, w3) => ⟨none, writer, File.Close w3 f2⟩

def PerformFindById (J : Json) (w : World) (fileName : String) (id : String)
    (writer : String) : Result :=
  match os.ReadFile w fileName with
  | (.error err, w1) => ⟨some err, writer, w1⟩
  | (.ok content, w1) =>
    match J.unmarshalItems content with
    | .error msg => ⟨some (.json msg), writer, w1⟩
    | .ok items =>
      match operationFindById id items with
      | some item => ⟨none, writer ++ J.marshalItem item, w1⟩
      | none => ⟨none, writer, w1⟩

/-- The loop of `operationRemove`: `i` is the index of the next element,
`itemIndexToRemove` the index kept so far (`-1` at the start). -/
def removeLoop (id : String) : List Item → Nat → Int → Int
  | [], _, itemIndexToRemove => itemIndexToRemove
  | item :: rest, i, itemIndexToRemove =>
    removeLoop id rest (i + 1) (if item.Id = id then (i : Int) else itemIndexToRemove)

def operationRemove (J : Json) (w : World) (fileName : String) (id : String)
    (writer : String) : Result :=
  match os.OpenFile w fileName with
  | (.error err, w1) => ⟨some err, writer, w1⟩
  | (.ok f, w1) =>
    match File.ReadAll w1 f with
    | (itemsJsonByte, f1, w2) =>
      match J.unmarshalItems itemsJsonByte with
      | .error msg => ⟨some (.json msg), writer, File.Close w2 f1⟩
      | .ok items =>
        let itemIndexToRemove := removeLoop id items 0 (-1)
        if itemIndexToRemove = -1 then
          ⟨none, writer ++ fmt.Errorf ErrorItemNotFound id, File.Close w2 f1⟩
        else
          let items2 := items.take itemIndexToRemove.toNat
            ++ items.drop (itemIndexToRemove.toNat + 1)
          let w3 := File.Truncate0 w2 f1
          match File.Seek0 w3 f1 with
          | (f2, w4) =>
            match File.Write w4 f2 (J.marshalItems items2) with
            | (f3, w5) => ⟨none, writer, File.Close w5 f3⟩

def Perform (J : Json) (w : World) (args : Arguments) (writer : String) : Result :=
  if ¬ args.isArgsPresent FileNameFlag then
    ⟨some (.fmt (fmt.Errorf ErrorNoFlag FileNameFlag)), writer, w⟩
  else if ¬ args.isArgsPresent OperationFlag then
    ⟨some (.fmt (fmt.Errorf ErrorNoFlag OperationFlag)), writer, w⟩
  else
    let operation := args.get OperationFlag
    let fileName := args.get FileNameFlag
    if operation = ListOperation then
      operationList w fileName writer
    else if operation = AddOperation then
      if ¬ args.isArgsPresent ItemFlag then
        ⟨some (.fmt (fmt.Errorf ErrorNoFlag ItemFlag)), writer, w⟩
      else operationAdd J w fileName (args.get ItemFlag) writer
    else if operation = FindByIdOperation then
      if ¬ args.isArgsPresent IdFlag then
        ⟨some (.fmt (fmt.Errorf ErrorNoFlag IdFlag)), writer, w⟩
      else PerformFindById J w fileName (args.get IdFlag) writer
    else if operation = RemoveOperation then
      if ¬ args.isArgsPresent IdFlag then
        ⟨some (.fmt (fmt.Errorf ErrorNoFlag IdFlag)), writer, w⟩
      else operationRemove J w fileName (args.get IdFlag) writer
    else
      ⟨some (.fmt (fmt.Errorf ErrorInvalidOperation operation)), writer, w⟩


/-! ## Auxiliary notions -/

/-- The file system after `os.OpenFile` and `ioutil.ReadAll` on an existing file. -/
def World.opened (w : World) (n : String) : World :=
  (w.log (.openFile n)).log (.readAll n)

/-- A flag is missing when the map has no entry for it or an empty one. -/
def Arguments.missing (args : Arguments) (flag : String) : Prop :=
  args flag = none ∨ args flag = some ""

/-! ## A reference codec -/

/-- A hexadecimal digit, in lower case. -/
def hexDigit (d : Nat) : Char :=
  if d < 10 then Char.ofNat (48 + d) else Char.ofNat (87 + d)

/-- The value of a hexadecimal digit of either case. -/
def hexVal (c : Char) : Option Nat :=
  if 48 ≤ c.toNat ∧ c.toNat ≤ 57 then some (c.toNat - 48)
  else if 97 ≤ c.toNat ∧ c.toNat ≤ 102 then some (c.toNat - 87)
  else if 65 ≤ c.toNat ∧ c.toNat ≤ 70 then some (c.toNat - 55)
  else none

/-- One character of a JSON string as `json.Marshal` writes it: `"` and `\`
get a backslash, line feed, carriage return and tab are `\n`, `\r`, `\t`,
other control characters, `<`, `>`, `&`, U+2028 and U+2029 are `\u` escapes
with four hexadecimal digits, every other character is copied. -/
def escapeChar (c : Char) : List Char :=
  if c = '"' ∨ c = '\\' then ['\\', c]
  else if c = '\n' then ['\\', 'n']
  else if c = '\r' then ['\\', 'r']
  else if c = '\t' then ['\\', 't']
  else if c.toNat < 32 ∨ c = '<' ∨ c = '>' ∨ c = '&' ∨ c.toNat = 8232 ∨ c.toNat = 8233 then
    ['\\', 'u', hexDigit (c.toNat / 4096 % 16), hexDigit (c.toNat / 256 % 16),
      hexDigit (c.toNat / 16 % 16), hexDigit (c.toNat % 16)]
  else [c]

def escape : List Char → List Char
  | [] => []
  | c :: cs => escapeChar c ++ escape cs

/-- Reads one character of a string body: an escape sequence, or a character
that is neither a backslash nor a control character. -/
def unescapeChar : List Char → Option (Char × List Char)
  | [] => none
  | c :: cs =>
    if c = '\\' then
      match cs with
      | [] => none
      | d :: ds =>
        if d = '"' ∨ d = '\\' ∨ d = '/' then some (d, ds)
        else if d = 'b' then some (Char.ofNat 8, ds)
        else if d = 'f' then some (Char.ofNat 12, ds)
        else if d = 'n' then some ('\n', ds)
        else if d = 'r' then some ('\r', ds)
        else if d = 't' then some ('\t', ds)
        else if d = 'u' then
          match ds with
          | h1 :: h2 :: h3 :: h4 :: rest =>
            match hexVal h1, hexVal h2, hexVal h3, hexVal h4 with
            | some v1, some v2, some v3, some v4 =>
              if 4096 * v1 + 256 * v2 + 16 * v3 + v4 < 55296 ∨
                  57343 < 4096 * v1 + 256 * v2 + 16 * v3 + v4 then
                some (Char.ofNat (4096 * v1 + 256 * v2 + 16 * v3 + v4), rest)
              else none
            | _, _, _, _ => none
          | _ => none
        else none
    else if c.toNat < 32 then none
    else some (c, cs)

/-- Reads the body of a JSON string up to its closing quote. -/
def unescape : Nat → List Char → Option (List Char × List Char)
  | 0, _ => none
  | _ + 1, [] => none
  | fuel + 1, c :: cs =>
    if c = '"' then some ([], cs)
    else
      match unescapeChar (c :: cs) with
      | none => none
      | some (x, rest) =>
        match unescape fuel rest with
        | some (s, rest2) => some (x :: s, rest2)
        | none => none

def quote (s : String) : List Char :=
  '"' :: (escape s.data ++ ['"'])

def digitChar (d : Nat) : Char := Char.ofNat (48 + d)

def encNatFuel : Nat → Nat → List Char
  | 0, _ => []
  | fuel + 1, n =>
    if n < 10 then [digitChar n] else encNatFuel fuel (n / 10) ++ [digitChar (n % 10)]

/-- The decimal digits of a natural number. -/
def encNat (n : Nat) : List Char := encNatFuel (n + 1) n

def encInt (n : Int) : List Char :=
  if n < 0 then '-' :: encNat n.natAbs else encNat n.natAbs

def encItem (x : Item) : List Char :=
  "\x7b\"id\":".data ++ (quote x.Id ++ (",\"email\":".data ++ (quote x.Email
    ++ (",\"age\":".data ++ (encInt x.Age.val ++ ['}'])))))

def encTail : List Item → List Char
  | [] => [']']
  | x :: xs => ',' :: (encItem x ++ encTail xs)

def encItems : List Item → List Char
  | [] => ['[', ']']
  | x :: xs => '[' :: (encItem x ++ encTail xs)

/-- Reads a fixed text off the front of the input. -/
def expect : List Char → List Char → Option (List Char)
  | [], inp => some inp
  | _ :: _, [] => none
  | c :: cs, d :: ds => if c = d then expect cs ds else none

def parseString : List Char → Option (String × List Char)
  | [] => none
  | c :: cs =>
    if c = '"' then
      match unescape cs.length cs with
      | some (s, rest) => some (⟨s⟩, rest)
      | none => none
    else none

def isDigit (c : Char) : Bool := decide (48 ≤ c.toNat ∧ c.toNat ≤ 57)

def parseDigits : List Char → Nat → Nat × List Char
  | [], acc => (acc, [])
  | c :: cs, acc =>
    if isDigit c then parseDigits cs (10 * acc + (c.toNat - 48)) else (acc, c :: cs)

/-- Reads a JSON natural number: digits, without a leading zero before
another digit. -/
def parseNat : List Char → Option (Nat × List Char)
  | [] => none
  | c :: cs =>
    if isDigit c then
      if c = '0' then
        match cs with
        | [] => some (0, [])
        | d :: ds => if isDigit d then none else some (0, d :: ds)
      else some (parseDigits (c :: cs) 0)
    else none

def parseInt : List Char → Option (Int × List Char)
  | [] => none
  | c :: cs =>
    if c = '-' then
      match parseNat cs with
      | some (n, rest) => some (-(n : Int), rest)
      | none => none
    else
      match parseNat (c :: cs) with
      | some (n, rest) => some ((n : Int), rest)
      | none => none

def parseItem (inp : List Char) : Option (Item × List Char) :=
  match expect "\x7b\"id\":".data inp with
  | none => none
  | some r1 =>
    match parseString r1 with
    | none => none
    | some (id, r2) =>
      match expect ",\"email\":".data r2 with
      | none => none
      | some r3 =>
        match parseString r3 with
        | none => none
        | some (email, r4) =>
          match expect ",\"age\":".data r4 with
          | none => none
          | some r5 =>
            match parseInt r5 with
            | none => none
            | some (age, r6) =>
              match expect ['}'] r6 with
              | none => none
              | some r7 =>
                if h : -9223372036854775808 ≤ age ∧ age ≤ 9223372036854775807 then
                  some (⟨id, email, ⟨age, h⟩⟩, r7)
                else none

def parseTail : Nat → List Char → Option (List Item × List Char)
  | 0, _ => none
  | _ + 1, [] => none
  | fuel + 1, c :: cs =>
    if c = ']' then some ([], cs)
    else if c = ',' then
      match parseItem cs with
      | none => none
      | some (x, rest) =>
        match parseTail fuel rest with
        | some (xs, rest2) => some (x :: xs, rest2)
        | none => none
    else none

def parseItems : List Char → Option (List Item)
  | [] => none
  | c :: cs =>
    if c = '[' then
      if cs = [']'] then some []
      else
        match parseItem cs with
        | none => none
        | some (x, rest) =>
          match parseTail rest.length rest with
          | some (xs, []) => some (x :: xs)
          | _ => none
    else none

def jsonFailure (inp : String) : String :=
  if inp = "" then "unexpected end of JSON input" else "invalid JSON input"

/-- A codec that writes an `Item` and a non-nil `[]Item` as `json.Marshal` does
(compact, fields `id`, `email`, `age` in this order; U+0008 and U+000C as
`\u0008` and `\u000c`, as up to Go 1.21), with a decoder that reads this
layout back and refuses any other input. -/
def refJson : Json where
  unmarshalItem inp :=
    match parseItem inp.data with
    | some (x, []) => .ok x
    | _ => .error (jsonFailure inp)
  unmarshalItems inp :=
    match parseItems inp.data with
    | some xs => .ok xs
    | none => .error (jsonFailure inp)
  marshalItem x := ⟨encItem x⟩
  marshalItems xs := ⟨encItems xs⟩

/-! ## Sample data -/

def alice : Item := ⟨"1", "a@x.com", ⟨30, by decide⟩⟩

def bob : Item := ⟨"2", "b@y.org", ⟨41, by decide⟩⟩

def carol : Item := ⟨"3", "c@z.net", ⟨25, by decide⟩⟩

def aliceJson : String := "\x7b\"id\":\"1\",\"email\":\"a@x.com\",\"age\":30\x7d"

def carolJson : String := "\x7b\"id\":\"3\",\"email\":\"c@z.net\",\"age\":25\x7d"

def usersJson : String :=
  "[\x7b\"id\":\"1\",\"email\":\"a@x.com\",\"age\":30\x7d,\x7b\"id\":\"2\",\"email\":\"b@y.org\",\"age\":41\x7d]"

/-- A file system whose only file is `users.json`, with the given content. -/
def diskWith (content : String) : World :=
  ⟨fun n => if n = "users.json" then .file content else .absent, []⟩

/-- A file system without files. -/
def emptyDisk : World :=
  ⟨fun _ => .absent, []⟩

/-- The argument map holding the listed flags. -/
def argsOf (flags : List (String × String)) : Arguments :=
  fun key => flags.lookup key

/-! ## Basic facts -/

theorem errorf_noFlag (flag : String) :
    fmt.Errorf ErrorNoFlag flag = "-" ++ flag ++ " flag has to be specified" := by
  apply String.ext
  simp [fmt.Errorf, ErrorNoFlag, fmtVerbS]

theorem errorf_invalidOperation (v : String) :
    fmt.Errorf ErrorInvalidOperation v = "Operation " ++ v ++ " not allowed!" := by
  apply String.ext
  simp [fmt.Errorf, ErrorInvalidOperation, fmtVerbS]

theorem errorf_existingItem (v : String) :
    fmt.Errorf ErrorExistingItem v = "Item with id " ++ v ++ " already exists" := by
  apply String.ext
  simp [fmt.Errorf, ErrorExistingItem, fmtVerbS]

theorem errorf_itemNotFound (v : String) :
    fmt.Errorf ErrorItemNotFound v = "Item with id " ++ v ++ " not found" := by
  apply String.ext
  simp [fmt.Errorf, ErrorItemNotFound, fmtVerbS]

@[simp]
theorem log_files (w : World) (e : Event) : (w.log e).files = w.files := rfl

@[simp]
theorem log_content (w : World) (e : Event) (n : String) :
    (w.log e).content n = w.content n := rfl

@[simp]
theorem setContent_files_same (w : World) (n c : String) :
    (w.setContent n c).files n = .file c := by
  simp [World.setContent]

theorem setContent_files_other (w : World) (n m c : String) (h : m ≠ n) :
    (w.setContent n c).files m = w.files m := by
  simp [World.setContent, Function.update, h]

@[simp]
theorem setContent_content_same (w : World) (n c : String) :
    (w.setContent n c).content n = c := by
  simp [World.content]

theorem content_of_file (w : World) (n c : String) (h : w.files n = .file c) :
    w.content n = c := by
  simp [World.content, h]

theorem openFile_file (w : World) (n c : String) (h : w.files n = .file c) :
    os.OpenFile w n = (.ok ⟨n, 0⟩, w.log (.openFile n)) := by
  simp [os.OpenFile, h]

theorem openFile_absent (w : World) (n : String) (h : w.files n = .absent) :
    os.OpenFile w n = (.ok ⟨n, 0⟩, (w.setContent n "").log (.openFile n)) := by
  simp [os.OpenFile, h]

theorem readAll_start (w : World) (n : String) :
    File.ReadAll w ⟨n, 0⟩
      = (w.content n, ⟨n, (w.content n).data.length⟩, w.log (.readAll n)) := by
  simp [File.ReadAll]

theorem write_at_end (w : World) (n b : String) :
    File.Write w ⟨n, (w.content n).data.length⟩ b
      = (⟨n, (w.content n).data.length + b.data.length⟩,
          (w.setContent n (w.content n ++ b)).log (.write n)) := by
  simp [File.Write]
  congr 1
  congr 1
  apply String.ext
  simp only [String.data_append, String.length]
  rw [List.take_of_length_le (le_refl _), List.drop_eq_nil_of_le (Nat.le_add_right _ _)]
  simp

theorem write_empty (w : World) (n b : String) (h : w.content n = "") :
    File.Write w ⟨n, 0⟩ b
      = (⟨n, b.data.length⟩, (w.setContent n b).log (.write n)) := by
  simp [File.Write, h]


/-! ## The lookup and the removal loop -/

theorem operationFindById_eq_find (id : String) (s : List Item) :
    operationFindById id s = s.find? (fun x => decide (x.Id = id)) := by
  induction s with
  | nil => rfl
  | cons x xs ih =>
    by_cases h : x.Id = id
    · simp [operationFindById, h]
    · simp [operationFindById, h, ih]

theorem operationFindById_none (id : String) (s : List Item) :
    operationFindById id s = none ↔ ∀ y ∈ s, y.Id ≠ id := by
  rw [operationFindById_eq_find]
  simp

theorem operationFindById_first (id : String) (pre post : List Item) (x : Item)
    (hx : x.Id = id) (hpre : ∀ y ∈ pre, y.Id ≠ id) :
    operationFindById id (pre ++ x :: post) = some x := by
  induction pre with
  | nil => simp [operationFindById, hx]
  | cons p ps ih =>
    have hp : p.Id ≠ id := hpre p (List.mem_cons_self _ _)
    have hps : ∀ y ∈ ps, y.Id ≠ id := fun y hy => hpre y (List.mem_cons_of_mem _ hy)
    simp [operationFindById, hp, ih hps]

theorem exists_first (id : String) (s : List Item) (h : ∃ y ∈ s, y.Id = id) :
    ∃ pre x post, s = pre ++ x :: post ∧ x.Id = id ∧ ∀ y ∈ pre, y.Id ≠ id := by
  induction s with
  | nil => simp at h
  | cons a as ih =>
    by_cases ha : a.Id = id
    · exact ⟨[], a, as, rfl, ha, by simp⟩
    · have h2 : ∃ y ∈ as, y.Id = id := by
        obtain ⟨y, hy, hyid⟩ := h
        rcases List.mem_cons.mp hy with rfl | hy2
        · exact absurd hyid ha
        · exact ⟨y, hy2, hyid⟩
      obtain ⟨pre, x, post, hs, hx, hpre⟩ := ih h2
      refine ⟨a :: pre, x, post, by simp [hs], hx, ?_⟩
      intro y hy
      rcases List.mem_cons.mp hy with rfl | hy2
      · exact ha
      · exact hpre y hy2

theorem removeLoop_no_match (id : String) (s : List Item) (k : Nat) (acc : Int)
    (h : ∀ y ∈ s, y.Id ≠ id) : removeLoop id s k acc = acc := by
  induction s generalizing k acc with
  | nil => rfl
  | cons a as ih =>
    have ha : a.Id ≠ id := h a (List.mem_cons_self _ _)
    have has : ∀ y ∈ as, y.Id ≠ id := fun y hy => h y (List.mem_cons_of_mem _ hy)
    simp [removeLoop, ha, ih _ _ has]

theorem removeLoop_append (id : String) (a b : List Item) (k : Nat) (acc : Int) :
    removeLoop id (a ++ b) k acc = removeLoop id b (k + a.length) (removeLoop id a k acc) := by
  induction a generalizing k acc with
  | nil => simp [removeLoop]
  | cons x xs ih =>
    show removeLoop id (xs ++ b) (k + 1) (if x.Id = id then (k : Int) else acc) = _
    rw [ih]
    simp only [removeLoop, List.length_cons]
    congr 1
    omega

/-- The loop returns the index of the last element with the identifier. -/
theorem removeLoop_last (id : String) (pre post : List Item) (x : Item) (acc : Int)
    (hx : x.Id = id) (hpost : ∀ y ∈ post, y.Id ≠ id) :
    removeLoop id (pre ++ x :: post) 0 acc = (pre.length : Int) := by
  rw [removeLoop_append]
  simp [removeLoop, hx, removeLoop_no_match id post _ _ hpost]

theorem take_drop_decomp (pre post : List Item) (x : Item) :
    (pre ++ x :: post).take pre.length ++ (pre ++ x :: post).drop (pre.length + 1)
      = pre ++ post := by
  simp

theorem exists_last (id : String) (s : List Item) (h : ∃ y ∈ s, y.Id = id) :
    ∃ pre x post, s = pre ++ x :: post ∧ x.Id = id ∧ ∀ y ∈ post, y.Id ≠ id := by
  induction s with
  | nil => simp at h
  | cons a as ih =>
    by_cases has : ∃ y ∈ as, y.Id = id
    · obtain ⟨pre, x, post, hs, hx, hpost⟩ := ih has
      exact ⟨a :: pre, x, post, by simp [hs], hx, hpost⟩
    · have ha : a.Id = id := by
        obtain ⟨y, hy, hyid⟩ := h
        rcases List.mem_cons.mp hy with rfl | hy2
        · exact hyid
        · exact absurd ⟨y, hy2, hyid⟩ has
      refine ⟨[], a, as, rfl, ha, ?_⟩
      intro y hy hyid
      exact has ⟨y, hy, hyid⟩


/-! ## The handlers on an existing regular file -/


@[simp]
theorem opened_files (w : World) (n : String) : (w.opened n).files = w.files := rfl

@[simp]
theorem opened_content (w : World) (n m : String) :
    (w.opened n).content m = w.content m := rfl

theorem operationAdd_eval (J : Json) (w : World) (fileName itemStr writer c : String)
    (r : Item) (s : List Item)
    (hitem : J.unmarshalItem itemStr = .ok r)
    (hfile : w.files fileName = .file c)
    (hdec : (if c ≠ "" then J.unmarshalItems c else .ok []) = .ok s) :
    operationAdd J w fileName itemStr writer =
      match operationFindById r.Id s with
      | some _ =>
        ⟨none, writer ++ fmt.Errorf ErrorExistingItem r.Id,
          (w.opened fileName).log (.close fileName)⟩
      | none =>
        ⟨none, writer,
          ((((w.opened fileName).setContent fileName
            (c ++ J.marshalItems (s ++ [r]))).log (.write fileName)).log (.close fileName))⟩ := by
  have hc : w.content fileName = c := content_of_file w fileName c hfile
  have hc2 : (w.log (Event.openFile fileName)).content fileName = c := hc
  unfold operationAdd
  simp only [hitem, openFile_file w fileName c hfile, readAll_start, hc2, hdec]
  cases hfind : operationFindById r.Id s with
  | some x => simp [File.Close, World.opened]
  | none =>
    have hw := write_at_end ((w.log (Event.openFile fileName)).log (Event.readAll fileName))
      fileName (J.marshalItems (s ++ [r]))
    simp only [log_content, hc] at hw
    simp only [hw]
    simp [File.Close, World.opened]

theorem PerformFindById_eval (J : Json) (w : World) (fileName id writer c : String)
    (s : List Item)
    (hfile : w.files fileName = .file c)
    (hdec : J.unmarshalItems c = .ok s) :
    PerformFindById J w fileName id writer =
      match operationFindById id s with
      | some item => ⟨none, writer ++ J.marshalItem item, w.log (.readFile fileName)⟩
      | none => ⟨none, writer, w.log (.readFile fileName)⟩ := by
  unfold PerformFindById
  simp only [os.ReadFile, hfile, hdec]

theorem operationRemove_eval (J : Json) (w : World) (fileName id writer c : String)
    (s : List Item)
    (hfile : w.files fileName = .file c)
    (hdec : J.unmarshalItems c = .ok s) :
    operationRemove J w fileName id writer =
      if removeLoop id s 0 (-1) = -1 then
        ⟨none, writer ++ fmt.Errorf ErrorItemNotFound id,
          (w.opened fileName).log (.close fileName)⟩
      else
        ⟨none, writer,
          ((((((w.opened fileName).setContent fileName "").log (.truncate fileName)).log
            (.seek fileName)).setContent fileName
              (J.marshalItems (s.take (removeLoop id s 0 (-1)).toNat
                ++ s.drop ((removeLoop id s 0 (-1)).toNat + 1)))).log
            (.write fileName)).log (.close fileName)⟩ := by
  have hc : w.content fileName = c := content_of_file w fileName c hfile
  have hc2 : (w.log (Event.openFile fileName)).content fileName = c := hc
  unfold operationRemove
  simp only [openFile_file w fileName c hfile, readAll_start, hc2, hdec]
  split
  · simp [File.Close, World.opened]
  · simp only [File.Seek0, File.Truncate0]
    rw [write_empty _ _ _ (by simp)]
    simp [File.Close, World.opened]


/-- `os.OpenFile` on an absent path behaves as on the empty file it creates. -/
theorem openFile_absent_eq (w : World) (n : String) (h : w.files n = .absent) :
    os.OpenFile w n = os.OpenFile (w.setContent n "") n := by
  rw [openFile_absent w n h, openFile_file (w.setContent n "") n "" (by simp)]

theorem operationAdd_absent (J : Json) (w : World) (fileName itemStr writer : String)
    (r : Item) (hitem : J.unmarshalItem itemStr = .ok r) (h : w.files fileName = .absent) :
    operationAdd J w fileName itemStr writer
      = operationAdd J (w.setContent fileName "") fileName itemStr writer := by
  unfold operationAdd
  simp only [hitem, openFile_absent_eq w fileName h]

theorem nodup_ids_append (s : List Item) (r : Item) (hs : (s.map Item.Id).Nodup)
    (hfresh : ∀ y ∈ s, y.Id ≠ r.Id) : ((s ++ [r]).map Item.Id).Nodup := by
  rw [List.map_append, List.nodup_append]
  refine ⟨hs, by simp, ?_⟩
  intro a ha hb
  simp only [List.map_cons, List.map_nil, List.mem_singleton] at hb
  obtain ⟨y, hy, hya⟩ := List.mem_map.mp ha
  exact hfresh y hy (hya.trans hb)

theorem filter_decomp (id : String) (pre post : List Item) (x : Item) (hx : x.Id = id)
    (hpre : ∀ y ∈ pre, y.Id ≠ id) (hpost : ∀ y ∈ post, y.Id ≠ id) :
    (pre ++ x :: post).filter (fun y => decide (y.Id ≠ id)) = pre ++ post := by
  have h1 : pre.filter (fun y => decide (y.Id ≠ id)) = pre :=
    List.filter_eq_self.mpr (fun y hy => by simpa using hpre y hy)
  have h2 : post.filter (fun y => decide (y.Id ≠ id)) = post :=
    List.filter_eq_self.mpr (fun y hy => by simpa using hpost y hy)
  rw [List.filter_append, List.filter_cons, h1, h2]
  simp [hx]

/-- An identifier that occurs exactly once splits the sequence around its record. -/
theorem exists_unique_split (id : String) (s : List Item)
    (h : (s.map Item.Id).count id = 1) :
    ∃ pre x post, s = pre ++ x :: post ∧ x.Id = id ∧
      (∀ y ∈ pre, y.Id ≠ id) ∧ (∀ y ∈ post, y.Id ≠ id) := by
  have hmem : id ∈ s.map Item.Id := List.count_pos_iff.mp (by omega)
  obtain ⟨y0, hy0, hy0id⟩ := List.mem_map.mp hmem
  obtain ⟨pre, x, post, hs, hx, hpre⟩ := exists_first id s ⟨y0, hy0, hy0id⟩
  refine ⟨pre, x, post, hs, hx, hpre, ?_⟩
  intro y hy hyid
  have hcount : (s.map Item.Id).count id
      = (pre.map Item.Id).count id + ((post.map Item.Id).count id + 1) := by
    rw [hs]
    simp [List.count_cons, hx]
  have hpos : 0 < (post.map Item.Id).count id :=
    List.count_pos_iff.mpr (List.mem_map.mpr ⟨y, hy, hyid⟩)
  omega


/-! ## The reference codec is lawful -/

theorem expect_append (lit rest : List Char) : expect lit (lit ++ rest) = some rest := by
  induction lit with
  | nil => cases rest <;> rfl
  | cons c cs ih => simp [expect, ih]

theorem hexVal_hexDigit (d : Nat) (h : d < 16) : hexVal (hexDigit d) = some d := by
  interval_cases d <;> rfl

theorem hex_digits_sum (n : Nat) (h : n < 65536) :
    4096 * (n / 4096 % 16) + 256 * (n / 256 % 16) + 16 * (n / 16 % 16) + n % 16 = n := by
  omega

theorem char_ofNat_toNat (c : Char) : Char.ofNat c.toNat = c := by
  exact Char.ofNat_toNat c

theorem unescapeChar_escapeChar (c : Char) (rest : List Char) :
    unescapeChar (escapeChar c ++ rest) = some (c, rest) := by
  unfold escapeChar
  split
  · rename_i h
    rcases h with h | h <;> subst h <;> simp [unescapeChar]
  split
  · rename_i h
    subst h
    simp [unescapeChar]
  split
  · rename_i h
    subst h
    simp [unescapeChar]
  split
  · rename_i h
    subst h
    simp [unescapeChar]
  split
  · rename_i h1 h2 h3 h4 h
    have hn : c.toNat < 55296 := by
      rcases h with h | h | h | h | h | h
      · omega
      · subst h; decide
      · subst h; decide
      · subst h; decide
      · omega
      · omega
    have hd : ∀ k, k % 16 < 16 := fun k => Nat.mod_lt _ (by omega)
    simp only [List.cons_append, List.nil_append, unescapeChar, if_true, hexVal_hexDigit _ (hd _)]
    have e := hex_digits_sum c.toNat (by omega)
    simp [e, hn, char_ofNat_toNat]
  · rename_i h1 h2 h3 h4 h
    have hb : ¬ c = '\\' := fun e => h1 (Or.inr e)
    have hc : ¬ c.toNat < 32 := fun e => h (Or.inl e)
    simp [unescapeChar, hb, hc]


theorem escapeChar_head (c : Char) : ∃ d tl, escapeChar c = d :: tl ∧ d ≠ '"' := by
  unfold escapeChar
  split
  · exact ⟨_, _, rfl, by decide⟩
  split
  · exact ⟨_, _, rfl, by decide⟩
  split
  · exact ⟨_, _, rfl, by decide⟩
  split
  · exact ⟨_, _, rfl, by decide⟩
  split
  · exact ⟨_, _, rfl, by decide⟩
  · rename_i h1 h2 h3 h4 h5
    exact ⟨c, [], rfl, fun e => h1 (Or.inl e)⟩

theorem escape_length (s : List Char) : s.length ≤ (escape s).length := by
  induction s with
  | nil => simp [escape]
  | cons c cs ih =>
    obtain ⟨d, tl, hd, -⟩ := escapeChar_head c
    simp only [escape, List.length_append, List.length_cons, hd]
    omega

theorem unescape_escape (s : List Char) (fuel : Nat) (rest : List Char)
    (h : s.length < fuel) :
    unescape fuel (escape s ++ '"' :: rest) = some (s, rest) := by
  induction s generalizing fuel with
  | nil =>
    cases fuel with
    | zero => simp at h
    | succ k => simp [escape, unescape]
  | cons c cs ih =>
    cases fuel with
    | zero => simp at h
    | succ k =>
      have hk : cs.length < k := by
        simp only [List.length_cons] at h
        omega
      obtain ⟨d, tl, hd, hq⟩ := escapeChar_head c
      have hu := unescapeChar_escapeChar c (escape cs ++ '"' :: rest)
      have e : escape (c :: cs) ++ '"' :: rest = d :: (tl ++ (escape cs ++ '"' :: rest)) := by
        simp [escape, hd]
      rw [hd] at hu
      rw [e]
      simp only [List.cons_append] at hu
      simp only [unescape, hq, if_false, hu, ih k hk]

theorem parseString_quote (s : String) (rest : List Char) :
    parseString (quote s ++ rest) = some (s, rest) := by
  have hlen : s.data.length < (escape s.data ++ '"' :: rest).length := by
    have := escape_length s.data
    simp only [List.length_append, List.length_cons]
    omega
  have h := unescape_escape s.data _ rest hlen
  have e : quote s ++ rest = '"' :: (escape s.data ++ '"' :: rest) := by
    simp [quote]
  rw [e]
  simp only [parseString, if_true, h]

theorem isDigit_digitChar (d : Nat) (h : d < 10) : isDigit (digitChar d) = true := by
  interval_cases d <;> rfl

theorem digitChar_val (d : Nat) (h : d < 10) : (digitChar d).toNat - 48 = d := by
  interval_cases d <;> rfl

theorem digitChar_ne_minus (d : Nat) (h : d < 10) : digitChar d ≠ '-' := by
  interval_cases d <;> decide

theorem encNatFuel_stable (fuel n : Nat) (h : n < fuel) :
    encNatFuel fuel n = encNatFuel (n + 1) n := by
  induction fuel using Nat.strong_induction_on generalizing n with
  | _ fuel ih =>
    cases fuel with
    | zero => omega
    | succ k =>
      by_cases h10 : n < 10
      · simp [encNatFuel, h10]
      · have e1 : encNatFuel (k + 1) n = encNatFuel k (n / 10) ++ [digitChar (n % 10)] := by
          simp [encNatFuel, h10]
        have e2 : encNatFuel (n + 1) n = encNatFuel n (n / 10) ++ [digitChar (n % 10)] := by
          simp [encNatFuel, h10]
        have hq : n / 10 < n := Nat.div_lt_self (by omega) (by omega)
        rw [e1, e2, ih k (by omega) (n / 10) (by omega), ih n (by omega) (n / 10) hq]

theorem encNat_small (n : Nat) (h : n < 10) : encNat n = [digitChar n] := by
  simp [encNat, encNatFuel, h]

theorem encNat_large (n : Nat) (h : ¬ n < 10) :
    encNat n = encNat (n / 10) ++ [digitChar (n % 10)] := by
  have hq : n / 10 < n := Nat.div_lt_self (by omega) (by omega)
  have e : encNatFuel (n + 1) n
      = if n < 10 then [digitChar n] else encNatFuel n (n / 10) ++ [digitChar (n % 10)] := rfl
  show encNatFuel (n + 1) n = encNatFuel (n / 10 + 1) (n / 10) ++ _
  rw [e, if_neg h, encNatFuel_stable n (n / 10) hq]

/-- Reading the digits of `n` from the accumulator 0 leaves `n` in the accumulator. -/
theorem parseDigits_encNat (n : Nat) (rest : List Char) :
    parseDigits (encNat n ++ rest) 0 = parseDigits rest n := by
  induction n using Nat.strong_induction_on generalizing rest with
  | _ n ih =>
    by_cases h10 : n < 10
    · rw [encNat_small n h10]
      simp [parseDigits, isDigit_digitChar n h10, digitChar_val n h10]
    · have hq : n / 10 < n := Nat.div_lt_self (by omega) (by omega)
      have hr : n % 10 < 10 := Nat.mod_lt _ (by omega)
      rw [encNat_large n h10, List.append_assoc, ih (n / 10) hq]
      simp only [List.singleton_append, parseDigits, isDigit_digitChar _ hr, if_true,
        digitChar_val _ hr]
      congr 1
      omega

theorem digitChar_ne_zero (d : Nat) (h : d < 10) (hpos : 0 < d) : digitChar d ≠ '0' := by
  interval_cases d <;> decide

theorem encNat_head (n : Nat) :
    ∃ d tl, d < 10 ∧ (0 < n → 0 < d) ∧ encNat n = digitChar d :: tl := by
  induction n using Nat.strong_induction_on with
  | _ n ih =>
    by_cases h10 : n < 10
    · exact ⟨n, [], h10, fun h => h, encNat_small n h10⟩
    · have hq : n / 10 < n := Nat.div_lt_self (by omega) (by omega)
      have hq0 : 0 < n / 10 := Nat.div_pos (by omega) (by omega)
      obtain ⟨d, tl, hd, hpos, he⟩ := ih (n / 10) hq
      exact ⟨d, tl ++ [digitChar (n % 10)], hd, fun _ => hpos hq0,
        by rw [encNat_large n h10, he]; rfl⟩

theorem parseNat_encNat (n : Nat) (rest : List Char)
    (hrest : ∀ c tl, rest = c :: tl → isDigit c = false) :
    parseNat (encNat n ++ rest) = some (n, rest) := by
  by_cases h0 : n = 0
  · subst h0
    rw [encNat_small 0 (by omega)]
    cases rest with
    | nil => rfl
    | cons c cs =>
      have hc := hrest c cs rfl
      have hz : digitChar 0 = '0' := rfl
      have hd : isDigit '0' = true := rfl
      simp [parseNat, hz, hd, hc]
  · obtain ⟨d, tl, hd, hpos, he⟩ := encNat_head n
    have hd0 : digitChar d ≠ '0' := digitChar_ne_zero d hd (hpos (by omega))
    have h1 : parseNat (encNat n ++ rest) = some (parseDigits (encNat n ++ rest) 0) := by
      rw [he]
      simp [parseNat, isDigit_digitChar d hd, hd0]
    rw [h1, parseDigits_encNat]
    cases rest with
    | nil => rfl
    | cons c cs => simp [parseDigits, hrest c cs rfl]

theorem parseInt_encInt (n : Int) (rest : List Char)
    (hrest : ∀ c tl, rest = c :: tl → isDigit c = false) :
    parseInt (encInt n ++ rest) = some (n, rest) := by
  by_cases hneg : n < 0
  · simp only [encInt, hneg, if_true, List.cons_append, parseInt]
    rw [parseNat_encNat _ _ hrest]
    simp only [if_true]
    congr 2
    omega
  · obtain ⟨d, tl, hd, -, he⟩ := encNat_head n.natAbs
    have hp := parseNat_encNat n.natAbs rest hrest
    simp only [encInt, hneg, if_false]
    rw [he] at hp ⊢
    simp only [List.cons_append, parseInt, digitChar_ne_minus d hd, if_false] at hp ⊢
    rw [hp]
    show some ((n.natAbs : Int), rest) = some (n, rest)
    congr 2
    omega


theorem parseItem_encItem (x : Item) (rest : List Char) :
    parseItem (encItem x ++ rest) = some (x, rest) := by
  have hbrace : ∀ c tl, '}' :: rest = c :: tl → isDigit c = false := by
    intro c tl h
    have hc : c = '}' := (List.cons.inj h).1.symm
    rw [hc]
    rfl
  have hint := parseInt_encInt x.Age.val ('}' :: rest) hbrace
  unfold parseItem encItem
  simp only [List.append_assoc, expect_append, parseString_quote]
  rw [List.singleton_append, hint]
  simp only [expect, if_true]
  rw [dif_pos x.Age.property]

theorem encItem_head (x : Item) : ∃ tl, encItem x = '{' :: tl :=
  ⟨_, rfl⟩

theorem encTail_length (xs : List Item) : xs.length < (encTail xs).length := by
  induction xs with
  | nil => simp [encTail]
  | cons x xs ih =>
    simp only [encTail, List.length_cons, List.length_append]
    omega

theorem parseTail_encTail (xs : List Item) (fuel : Nat) (rest : List Char)
    (h : xs.length < fuel) :
    parseTail fuel (encTail xs ++ rest) = some (xs, rest) := by
  induction xs generalizing fuel with
  | nil =>
    cases fuel with
    | zero => simp at h
    | succ k => simp [encTail, parseTail]
  | cons x xs ih =>
    cases fuel with
    | zero => simp at h
    | succ k =>
      have hk : xs.length < k := by
        simp only [List.length_cons] at h
        omega
      have hc : ¬ (',' : Char) = ']' := by decide
      have e : encTail (x :: xs) ++ rest = ',' :: (encItem x ++ (encTail xs ++ rest)) := by
        simp [encTail]
      rw [e]
      simp only [parseTail, hc, if_false, if_true, parseItem_encItem, ih k hk]

theorem parseItems_encItems (xs : List Item) : parseItems (encItems xs) = some xs := by
  cases xs with
  | nil => simp [encItems, parseItems]
  | cons x xs =>
    obtain ⟨tl, htl⟩ := encItem_head x
    have hne : ¬ (encItem x ++ encTail xs = [']']) := by
      rw [htl]
      simp
    have ht := parseTail_encTail xs (encTail xs).length [] (encTail_length xs)
    rw [List.append_nil] at ht
    simp only [encItems, parseItems, if_true, hne, if_false, parseItem_encItem, ht]

theorem refJson_lawful : refJson.Lawful where
  roundtrip := by
    intro s
    show (match parseItems (encItems s) with
      | some xs => Except.ok xs
      | none => Except.error _) = Except.ok s
    rw [parseItems_encItems]
  empty_input := by
    intro s h
    exact absurd h (by simp [refJson, parseItems])
  marshal_ne := by
    intro s h
    have h2 := congrArg String.data h
    cases s <;> simp [refJson, encItems] at h2

theorem refJson_item_roundtrip (x : Item) :
    refJson.unmarshalItem (refJson.marshalItem x) = .ok x := by
  have h := parseItem_encItem x []
  rw [List.append_nil] at h
  show (match parseItem (encItem x) with
    | some (y, []) => Except.ok y
    | _ => Except.error _) = Except.ok x
  rw [h]

/-- The decoding step of `operationAdd`: empty content stands for the empty
sequence, other content goes through `json.Unmarshal`. -/
theorem add_decoding (J : Json) (hJ : J.Lawful) (c : String) (s : List Item)
    (hdec : (c = "" ∧ s = []) ∨ J.unmarshalItems c = .ok s) :
    (if c ≠ "" then J.unmarshalItems c else .ok []) = .ok s := by
  rcases hdec with ⟨hc, hs⟩ | hd
  · simp [hc, hs]
  · have hc : c ≠ "" := by
      intro h
      rw [h] at hd
      exact hJ.empty_input s hd
    rw [if_pos hc, hd]

/-- The result of `operationAdd` for a record whose identifier is new. -/
theorem operationAdd_fresh (J : Json) (hJ : J.Lawful) (w : World)
    (fileName itemStr writer c : String) (r : Item) (s : List Item)
    (hfile : w.files fileName = .file c)
    (hdec : (c = "" ∧ s = []) ∨ J.unmarshalItems c = .ok s)
    (hitem : J.unmarshalItem itemStr = .ok r)
    (hfresh : ∀ y ∈ s, y.Id ≠ r.Id) :
    operationAdd J w fileName itemStr writer =
      ⟨none, writer,
        ((((w.opened fileName).setContent fileName
          (c ++ J.marshalItems (s ++ [r]))).log (.write fileName)).log (.close fileName))⟩ := by
  rw [operationAdd_eval J w fileName itemStr writer c r s hitem hfile (add_decoding J hJ c s hdec)]
  rw [(operationFindById_none r.Id s).mpr hfresh]

/-- The result of `operationAdd` for a record whose identifier is in the file. -/
theorem operationAdd_existing (J : Json) (hJ : J.Lawful) (w : World)
    (fileName itemStr writer c : String) (r : Item) (s : List Item)
    (hfile : w.files fileName = .file c)
    (hdec : J.unmarshalItems c = .ok s)
    (hmem : ∃ y ∈ s, y.Id = r.Id)
    (hitem : J.unmarshalItem itemStr = .ok r) :
    operationAdd J w fileName itemStr writer =
      ⟨none, writer ++ ("Item with id " ++ r.Id ++ " already exists"),
        (w.opened fileName).log (.close fileName)⟩ := by
  rw [operationAdd_eval J w fileName itemStr writer c r s hitem hfile
    (add_decoding J hJ c s (Or.inr hdec))]
  obtain ⟨pre, x, post, hs, hx, hpre⟩ := exists_first r.Id s hmem
  have hfind : operationFindById r.Id s = some x := by
    rw [hs]
    exact operationFindById_first r.Id pre post x hx hpre
  rw [hfind, errorf_existingItem]

/-! ## The claims about the handlers -/

/-- C5: on a file whose content decodes to `s`, `PerformFindById` returns no
error and leaves every file as it was; `operationFindById` is the first-match
lookup; when some record of `s` has identifier `i`, the first such record is
returned and its JSON encoding is written; when none has, `nil` is returned and
nothing is written. -/
theorem PerformFindById_first_match (J : Json) (w : World)
    (fileName i writer c : String) (s : List Item)
    (hfile : w.files fileName = .file c)
    (hdec : J.unmarshalItems c = .ok s) :
    (PerformFindById J w fileName i writer).err = none ∧
    (PerformFindById J w fileName i writer).world.files = w.files ∧
    operationFindById i s = s.find? (fun x => decide (x.Id = i)) ∧
    ((∃ y ∈ s, y.Id = i) →
      ∃ pre x post, s = pre ++ x :: post ∧ x.Id = i ∧ (∀ y ∈ pre, y.Id ≠ i) ∧
        operationFindById i s = some x ∧
        (PerformFindById J w fileName i writer).writer = writer ++ J.marshalItem x) ∧
    ((∀ y ∈ s, y.Id ≠ i) →
      operationFindById i s = none ∧
        (PerformFindById J w fileName i writer).writer = writer) := by
  rw [PerformFindById_eval J w fileName i writer c s hfile hdec]
  refine ⟨?_, ?_, operationFindById_eq_find i s, ?_, ?_⟩
  · cases operationFindById i s <;> rfl
  · cases operationFindById i s <;> rfl
  · intro h
    obtain ⟨pre, x, post, hs, hx, hpre⟩ := exists_first i s h
    have hfind : operationFindById i s = some x := by
      rw [hs]
      exact operationFindById_first i pre post x hx hpre
    exact ⟨pre, x, post, hs, hx, hpre, hfind, by rw [hfind]⟩
  · intro h
    have hfind : operationFindById i s = none := (operationFindById_none i s).mpr h
    exact ⟨hfind, by rw [hfind]⟩

/-- C2: when the file content decodes to a sequence holding a record with
identifier `i` and the item string decodes to a record with identifier `i`,
`operationAdd` returns no error, leaves every file as it was, and writes exactly
`Item with id ` followed by `i` followed by ` already exists`. -/
theorem operationAdd_duplicate (J : Json) (hJ : J.Lawful) (w : World)
    (fileName itemStr writer c i : String) (r : Item) (s : List Item)
    (hfile : w.files fileName = .file c)
    (hdec : J.unmarshalItems c = .ok s)
    (hmem : ∃ y ∈ s, y.Id = i)
    (hitem : J.unmarshalItem itemStr = .ok r)
    (hid : r.Id = i) :
    (operationAdd J w fileName itemStr writer).err = none ∧
    (operationAdd J w fileName itemStr writer).world.files = w.files ∧
    (operationAdd J w fileName itemStr writer).writer
      = writer ++ ("Item with id " ++ i ++ " already exists") := by
  subst hid
  rw [operationAdd_existing J hJ w fileName itemStr writer c r s hfile hdec hmem hitem]
  exact ⟨rfl, rfl, rfl⟩

/-- C10: on a file with content `c` that is empty (then `s = []`) or decodes to
`s`, and an item string that decodes to a record `r` whose identifier is not in
`s`, `operationAdd` returns no error, writes nothing, and leaves the file with
content `c` followed by the encoding of `s ++ [r]`, other files untouched; that
content is the encoding alone exactly when `c` is empty, it is longer than `c`
and starts with `c`. -/
theorem operationAdd_appends (J : Json) (hJ : J.Lawful) (w : World)
    (fileName itemStr writer c : String) (r : Item) (s : List Item)
    (hfile : w.files fileName = .file c)
    (hdec : (c = "" ∧ s = []) ∨ J.unmarshalItems c = .ok s)
    (hitem : J.unmarshalItem itemStr = .ok r)
    (hfresh : ∀ y ∈ s, y.Id ≠ r.Id) :
    (operationAdd J w fileName itemStr writer).err = none ∧
    (operationAdd J w fileName itemStr writer).writer = writer ∧
    (operationAdd J w fileName itemStr writer).world.files fileName
      = .file (c ++ J.marshalItems (s ++ [r])) ∧
    (∀ n, n ≠ fileName →
      (operationAdd J w fileName itemStr writer).world.files n = w.files n) ∧
    (c ++ J.marshalItems (s ++ [r]) = J.marshalItems (s ++ [r]) ↔ c = "") ∧
    c.length < (c ++ J.marshalItems (s ++ [r])).length ∧
    c.data <+: (c ++ J.marshalItems (s ++ [r])).data := by
  rw [operationAdd_fresh J hJ w fileName itemStr writer c r s hfile hdec hitem hfresh]
  have hne : (J.marshalItems (s ++ [r])).data ≠ [] := by
    intro h
    exact hJ.marshal_ne (s ++ [r]) (String.ext h)
  refine ⟨rfl, rfl, ?_, ?_, ?_, ?_, ?_⟩
  · simp
  · intro n hn
    simp [setContent_files_other _ _ _ _ hn]
  · constructor
    · intro h
      have h2 := congrArg String.data h
      simp only [String.data_append] at h2
      exact String.ext (List.append_left_eq_self.mp h2)
    · intro h
      rw [h]
      exact String.ext (by simp)
  · simp only [String.length_append]
    have : 0 < (J.marshalItems (s ++ [r])).length := by
      simp only [String.length]
      exact List.length_pos.mpr hne
    omega
  · simp

/-- The result of `operationRemove` when the identifier is in the decoded sequence. -/
theorem operationRemove_found (J : Json) (w : World) (fileName id writer c : String)
    (pre post : List Item) (x : Item)
    (hfile : w.files fileName = .file c)
    (hdec : J.unmarshalItems c = .ok (pre ++ x :: post))
    (hx : x.Id = id) (hpost : ∀ y ∈ post, y.Id ≠ id) :
    (operationRemove J w fileName id writer).err = none ∧
    (operationRemove J w fileName id writer).writer = writer ∧
    (operationRemove J w fileName id writer).world.files fileName
      = .file (J.marshalItems (pre ++ post)) ∧
    (∀ n, n ≠ fileName →
      (operationRemove J w fileName id writer).world.files n = w.files n) := by
  rw [operationRemove_eval J w fileName id writer c _ hfile hdec]
  have hloop := removeLoop_last id pre post x (-1) hx hpost
  have hne : ¬ removeLoop id (pre ++ x :: post) 0 (-1) = -1 := by
    rw [hloop]
    omega
  rw [if_neg hne, hloop]
  rw [Int.toNat_ofNat, take_drop_decomp]
  refine ⟨rfl, rfl, ?_, ?_⟩
  · simp
  · intro n hn
    simp [setContent_files_other _ _ _ _ hn]

/-- The result of `operationRemove` when the identifier is not in the decoded sequence. -/
theorem operationRemove_missing (J : Json) (w : World) (fileName id writer c : String)
    (s : List Item)
    (hfile : w.files fileName = .file c)
    (hdec : J.unmarshalItems c = .ok s)
    (hmiss : ∀ y ∈ s, y.Id ≠ id) :
    (operationRemove J w fileName id writer).err = none ∧
    (operationRemove J w fileName id writer).world.files = w.files ∧
    (operationRemove J w fileName id writer).writer
      = writer ++ ("Item with id " ++ id ++ " not found") := by
  rw [operationRemove_eval J w fileName id writer c s hfile hdec]
  rw [if_pos (removeLoop_no_match id s 0 (-1) hmiss)]
  refine ⟨rfl, rfl, ?_⟩
  show writer ++ fmt.Errorf ErrorItemNotFound id = _
  rw [errorf_itemNotFound]

/-- C3: on a file whose content decodes to `s` in which identifier `i` occurs
exactly once, `operationRemove` returns no error and writes nothing; the file
then decodes to `s` without the record of identifier `i`: one record fewer,
none with identifier `i`, the others in their order; other files are untouched. -/
theorem operationRemove_present_once (J : Json) (hJ : J.Lawful) (w : World)
    (fileName i writer c : String) (s : List Item)
    (hfile : w.files fileName = .file c)
    (hdec : J.unmarshalItems c = .ok s)
    (honce : (s.map Item.Id).count i = 1) :
    (operationRemove J w fileName i writer).err = none ∧
    (operationRemove J w fileName i writer).writer = writer ∧
    (∃ pre x post, s = pre ++ x :: post ∧ x.Id = i ∧
      J.unmarshalItems ((operationRemove J w fileName i writer).world.content fileName)
        = .ok (pre ++ post) ∧
      (pre ++ post).length = s.length - 1 ∧
      (∀ y ∈ pre ++ post, y.Id ≠ i) ∧
      pre ++ post = s.filter (fun y => decide (y.Id ≠ i))) ∧
    (∀ n, n ≠ fileName →
      (operationRemove J w fileName i writer).world.files n = w.files n) := by
  obtain ⟨pre, x, post, hs, hx, hpre, hpost⟩ := exists_unique_split i s honce
  subst hs
  obtain ⟨h1, h2, h3, h4⟩ :=
    operationRemove_found J w fileName i writer c pre post x hfile hdec hx hpost
  refine ⟨h1, h2, ⟨pre, x, post, rfl, hx, ?_, ?_, ?_, ?_⟩, h4⟩
  · rw [content_of_file _ _ _ h3]
    exact hJ.roundtrip (pre ++ post)
  · simp
  · intro y hy
    rcases List.mem_append.mp hy with h | h
    · exact hpre y h
    · exact hpost y h
  · exact (filter_decomp i pre post x hx hpre hpost).symm

/-- C4, as amended: on a file whose content decodes to `s` in which no record
has identifier `i`, `operationRemove` returns no error, leaves every file as it
was, and writes exactly `Item with id ` followed by `i` followed by
` not found`. -/
theorem operationRemove_absent_id (J : Json) (w : World)
    (fileName i writer c : String) (s : List Item)
    (hfile : w.files fileName = .file c)
    (hdec : J.unmarshalItems c = .ok s)
    (hmiss : ∀ y ∈ s, y.Id ≠ i) :
    (operationRemove J w fileName i writer).err = none ∧
    (operationRemove J w fileName i writer).world.files = w.files ∧
    J.unmarshalItems ((operationRemove J w fileName i writer).world.content fileName)
      = .ok s ∧
    (operationRemove J w fileName i writer).writer
      = writer ++ ("Item with id " ++ i ++ " not found") := by
  obtain ⟨h1, h2, h3⟩ := operationRemove_missing J w fileName i writer c s hfile hdec hmiss
  refine ⟨h1, h2, ?_, h3⟩
  have hc : (operationRemove J w fileName i writer).world.content fileName = c := by
    apply content_of_file
    rw [h2]
    exact hfile
  rw [hc]
  exact hdec

/-- C1: when the item string decodes to a record `r` and the file is empty or
absent, `operationAdd` returns no error and writes nothing, leaving the file
with the encoding of `[r]`; `PerformFindById` with the identifier of `r` on the
resulting file system then returns no error and writes the JSON encoding of
`r`, which `operationFindById` has found in the decoded file. -/
theorem add_then_findById_roundtrip (J : Json) (hJ : J.Lawful) (w : World)
    (fileName itemStr writer : String) (r : Item)
    (hitem : J.unmarshalItem itemStr = .ok r)
    (hfile : w.files fileName = .file "" ∨ w.files fileName = .absent) :
    (operationAdd J w fileName itemStr writer).err = none ∧
    (operationAdd J w fileName itemStr writer).writer = writer ∧
    (operationAdd J w fileName itemStr writer).world.files fileName
      = .file (J.marshalItems [r]) ∧
    operationFindById r.Id [r] = some r ∧
    (PerformFindById J (operationAdd J w fileName itemStr writer).world fileName r.Id
      (operationAdd J w fileName itemStr writer).writer).err = none ∧
    (PerformFindById J (operationAdd J w fileName itemStr writer).world fileName r.Id
      (operationAdd J w fileName itemStr writer).writer).writer
        = writer ++ J.marshalItem r := by
  have key : ∀ w2 : World, w2.files fileName = .file "" →
      (operationAdd J w2 fileName itemStr writer).err = none ∧
      (operationAdd J w2 fileName itemStr writer).writer = writer ∧
      (operationAdd J w2 fileName itemStr writer).world.files fileName
        = .file (J.marshalItems [r]) := by
    intro w2 h2
    rw [operationAdd_fresh J hJ w2 fileName itemStr writer "" r [] h2 (Or.inl ⟨rfl, rfl⟩)
      hitem (by simp)]
    refine ⟨rfl, rfl, ?_⟩
    have e : "" ++ J.marshalItems ([] ++ [r]) = J.marshalItems [r] := String.ext (by simp)
    rw [e]
    simp
  have hadd : (operationAdd J w fileName itemStr writer).err = none ∧
      (operationAdd J w fileName itemStr writer).writer = writer ∧
      (operationAdd J w fileName itemStr writer).world.files fileName
        = .file (J.marshalItems [r]) := by
    rcases hfile with h | h
    · exact key w h
    · rw [operationAdd_absent J w fileName itemStr writer r hitem h]
      exact key _ (by simp)
  obtain ⟨h1, h2, h3⟩ := hadd
  have hfind : operationFindById r.Id [r] = some r := by simp [operationFindById]
  have hev := PerformFindById_eval J (operationAdd J w fileName itemStr writer).world
    fileName r.Id (operationAdd J w fileName itemStr writer).writer _ [r] h3 (hJ.roundtrip [r])
  refine ⟨h1, h2, h3, hfind, ?_, ?_⟩
  · rw [hev, hfind]
  · rw [hev, hfind, h2]

/-- C9: when the sequence `s` decoded from the file has pairwise distinct
identifiers, so has what the mutating handlers write.  `operationAdd` writes
the encoding of `s ++ [r]`, and only when no record of `s` has the identifier of
`r` (otherwise no file changes); `operationRemove` writes the encoding of `s`
without the record of identifier `i`, and only when `s` has such a record
(otherwise no file changes). -/
theorem unique_ids_preserved (J : Json) (hJ : J.Lawful) (w : World)
    (fileName itemStr i writer c : String) (r : Item) (s : List Item)
    (hfile : w.files fileName = .file c)
    (hdec : J.unmarshalItems c = .ok s)
    (hitem : J.unmarshalItem itemStr = .ok r)
    (hnodup : (s.map Item.Id).Nodup) :
    ((∀ y ∈ s, y.Id ≠ r.Id) →
      (operationAdd J w fileName itemStr writer).world.files fileName
        = .file (c ++ J.marshalItems (s ++ [r])) ∧
      ((s ++ [r]).map Item.Id).Nodup) ∧
    ((∃ y ∈ s, y.Id = r.Id) →
      (operationAdd J w fileName itemStr writer).world.files = w.files) ∧
    ((∃ y ∈ s, y.Id = i) →
      (operationRemove J w fileName i writer).world.files fileName
        = .file (J.marshalItems (s.filter (fun y => decide (y.Id ≠ i)))) ∧
      ((s.filter (fun y => decide (y.Id ≠ i))).map Item.Id).Nodup) ∧
    ((∀ y ∈ s, y.Id ≠ i) →
      (operationRemove J w fileName i writer).world.files = w.files) := by
  refine ⟨?_, ?_, ?_, ?_⟩
  · intro hfresh
    rw [operationAdd_fresh J hJ w fileName itemStr writer c r s hfile (Or.inr hdec) hitem
      hfresh]
    exact ⟨by simp, nodup_ids_append s r hnodup hfresh⟩
  · intro hmem
    rw [operationAdd_existing J hJ w fileName itemStr writer c r s hfile hdec hmem hitem]
    rfl
  · intro hmem
    have hcount : (s.map Item.Id).count i = 1 := by
      obtain ⟨y, hy, hyi⟩ := hmem
      exact List.count_eq_one_of_mem hnodup (List.mem_map.mpr ⟨y, hy, hyi⟩)
    obtain ⟨pre, x, post, hs, hx, hpre, hpost⟩ := exists_unique_split i s hcount
    subst hs
    rw [filter_decomp i pre post x hx hpre hpost]
    refine ⟨(operationRemove_found J w fileName i writer c pre post x hfile hdec hx hpost).2.2.1,
      ?_⟩
    have hsub : (pre ++ post).Sublist (pre ++ x :: post) :=
      List.Sublist.append (List.Sublist.refl pre) (List.sublist_cons_self x post)
    exact List.Nodup.sublist (List.Sublist.map Item.Id hsub) hnodup
  · intro hmiss
    exact (operationRemove_missing J w fileName i writer c s hfile hdec hmiss).2.1


/-! ## The dispatcher -/


theorem isArgsPresent_eq_false (args : Arguments) (flag : String) :
    args.isArgsPresent flag = false ↔ args.missing flag := by
  unfold Arguments.isArgsPresent Arguments.missing
  cases h : args flag with
  | none => simp
  | some v => simp

theorem isArgsPresent_eq_true (args : Arguments) (flag : String) :
    args.isArgsPresent flag = true ↔ ∃ v, args flag = some v ∧ v ≠ "" := by
  unfold Arguments.isArgsPresent
  cases h : args flag with
  | none => simp
  | some v => simp

theorem operationList_not_fmt (w : World) (fileName writer t : String) :
    (operationList w fileName writer).err ≠ some (.fmt t) := by
  unfold operationList os.ReadFile
  cases w.files fileName <;> simp

theorem PerformFindById_not_fmt (J : Json) (w : World) (fileName id writer t : String) :
    (PerformFindById J w fileName id writer).err ≠ some (.fmt t) := by
  unfold PerformFindById os.ReadFile
  cases w.files fileName with
  | absent => simp
  | blocked => simp
  | file c =>
    simp only
    cases J.unmarshalItems c with
    | error msg => simp
    | ok items =>
      simp only
      split <;> simp

theorem operationAdd_not_fmt (J : Json) (w : World) (fileName itemStr writer t : String) :
    (operationAdd J w fileName itemStr writer).err ≠ some (.fmt t) := by
  unfold operationAdd
  cases J.unmarshalItem itemStr with
  | error msg => simp
  | ok item =>
    simp only
    cases hopen : os.OpenFile w fileName with
    | mk res w1 =>
      cases res with
      | error err =>
        simp only
        unfold os.OpenFile at hopen
        cases hw : w.files fileName <;> simp [hw] at hopen
        intro h
        rw [← hopen.1] at h
        simp at h
      | ok f =>
        simp only
        split
        · simp
        · split <;> simp

theorem operationRemove_not_fmt (J : Json) (w : World) (fileName id writer t : String) :
    (operationRemove J w fileName id writer).err ≠ some (.fmt t) := by
  unfold operationRemove
  cases hopen : os.OpenFile w fileName with
  | mk res w1 =>
    cases res with
    | error err =>
      simp only
      unfold os.OpenFile at hopen
      cases hw : w.files fileName <;> simp [hw] at hopen
      intro h
      rw [← hopen.1] at h
      simp at h
    | ok f =>
      simp only
      split
      · simp
      · split <;> simp


theorem not_missing_iff (args : Arguments) (flag : String) :
    ¬ args.missing flag ↔ ∃ v, args flag = some v ∧ v ≠ "" := by
  rw [← isArgsPresent_eq_false, ← isArgsPresent_eq_true]
  simp

/-- The dispatcher once both global flags are present. -/
theorem Perform_dispatch (J : Json) (w : World) (args : Arguments) (writer f op : String)
    (hf : args FileNameFlag = some f) (hfne : f ≠ "")
    (hop : args OperationFlag = some op) (hopne : op ≠ "") :
    Perform J w args writer =
      if op = ListOperation then operationList w f writer
      else if op = AddOperation then
        if args.isArgsPresent ItemFlag = false then
          ⟨some (.fmt (fmt.Errorf ErrorNoFlag ItemFlag)), writer, w⟩
        else operationAdd J w f (args.get ItemFlag) writer
      else if op = FindByIdOperation then
        if args.isArgsPresent IdFlag = false then
          ⟨some (.fmt (fmt.Errorf ErrorNoFlag IdFlag)), writer, w⟩
        else PerformFindById J w f (args.get IdFlag) writer
      else if op = RemoveOperation then
        if args.isArgsPresent IdFlag = false then
          ⟨some (.fmt (fmt.Errorf ErrorNoFlag IdFlag)), writer, w⟩
        else operationRemove J w f (args.get IdFlag) writer
      else ⟨some (.fmt (fmt.Errorf ErrorInvalidOperation op)), writer, w⟩ := by
  have h1 : args.isArgsPresent FileNameFlag = true :=
    (isArgsPresent_eq_true args FileNameFlag).mpr ⟨f, hf, hfne⟩
  have h2 : args.isArgsPresent OperationFlag = true :=
    (isArgsPresent_eq_true args OperationFlag).mpr ⟨op, hop, hopne⟩
  have h3 : args.get OperationFlag = op := by simp [Arguments.get, hop]
  have h4 : args.get FileNameFlag = f := by simp [Arguments.get, hf]
  unfold Perform
  simp only [h1, h2, h3, h4, Bool.not_eq_true, Bool.true_eq_false, if_false, not_true_eq_false]

theorem noFlag_ne_invalidOperation (flag v : String) :
    fmt.Errorf ErrorNoFlag flag ≠ "Operation " ++ v ++ " not allowed!" := by
  rw [errorf_noFlag]
  intro h
  have h2 := congrArg String.data h
  simp at h2

theorem invalidOperation_inj (a b : String)
    (h : "Operation " ++ a ++ " not allowed!" = "Operation " ++ b ++ " not allowed!") :
    a = b := by
  have h2 := congrArg String.data h
  simp only [String.data_append] at h2
  have h3 := List.append_cancel_right h2
  exact String.ext (List.append_cancel_left h3)

/-- The dispatcher without a `fileName` flag. -/
theorem Perform_no_fileName (J : Json) (w : World) (args : Arguments) (writer : String)
    (hm : args.missing FileNameFlag) :
    Perform J w args writer
      = ⟨some (.fmt "-fileName flag has to be specified"), writer, w⟩ := by
  have hf : args.isArgsPresent FileNameFlag = false := (isArgsPresent_eq_false _ _).mpr hm
  have hev : Perform J w args writer
      = ⟨some (.fmt (fmt.Errorf ErrorNoFlag FileNameFlag)), writer, w⟩ := by
    unfold Perform
    simp [hf]
  rw [hev, errorf_noFlag]
  rfl

/-- The dispatcher with a `fileName` flag and without an `operation` flag. -/
theorem Perform_no_operation (J : Json) (w : World) (args : Arguments) (writer : String)
    (hnf : ¬ args.missing FileNameFlag) (hm : args.missing OperationFlag) :
    Perform J w args writer
      = ⟨some (.fmt "-operation flag has to be specified"), writer, w⟩ := by
  have hf : args.isArgsPresent FileNameFlag = true := by
    rw [← isArgsPresent_eq_false] at hnf
    simpa using hnf
  have ho : args.isArgsPresent OperationFlag = false := (isArgsPresent_eq_false _ _).mpr hm
  have hev : Perform J w args writer
      = ⟨some (.fmt (fmt.Errorf ErrorNoFlag OperationFlag)), writer, w⟩ := by
    unfold Perform
    simp [hf, ho]
  rw [hev, errorf_noFlag]
  rfl

/-- C6: when `fileName` or `operation` is absent or empty, `Perform` returns
the missing-flag error, naming `fileName` when that flag is missing and
`operation` otherwise; nothing is written and the file system, with its log of
calls, is as before. -/
theorem Perform_missing_global_flag (J : Json) (w : World) (args : Arguments)
    (writer : String)
    (h : args.missing FileNameFlag ∨ args.missing OperationFlag) :
    (args.missing FileNameFlag →
      (Perform J w args writer).err = some (.fmt "-fileName flag has to be specified")) ∧
    (¬ args.missing FileNameFlag →
      (Perform J w args writer).err = some (.fmt "-operation flag has to be specified")) ∧
    (Perform J w args writer).writer = writer ∧
    (Perform J w args writer).world = w := by
  by_cases hm : args.missing FileNameFlag
  · rw [Perform_no_fileName J w args writer hm]
    exact ⟨fun _ => rfl, fun hn => absurd hm hn, rfl, rfl⟩
  · have ho : args.missing OperationFlag := by
      rcases h with h | h
      · exact absurd h hm
      · exact h
    rw [Perform_no_operation J w args writer hm ho]
    exact ⟨fun h2 => absurd h2 hm, fun _ => rfl, rfl, rfl⟩

/-- C7: `Perform` returns the error `Operation v not allowed!` exactly when
`fileName` is present and non-empty and the `operation` flag holds a non-empty
`v` other than `list`, `add`, `findById`, `remove`; in that case nothing is
written and the file system, with its log of calls, is as before. -/
theorem Perform_invalid_operation (J : Json) (w : World) (args : Arguments)
    (writer v : String) :
    ((Perform J w args writer).err = some (.fmt ("Operation " ++ v ++ " not allowed!")) ↔
      (¬ args.missing FileNameFlag ∧ args OperationFlag = some v ∧ v ≠ "" ∧
        v ≠ "list" ∧ v ≠ "add" ∧ v ≠ "findById" ∧ v ≠ "remove")) ∧
    ((¬ args.missing FileNameFlag ∧ args OperationFlag = some v ∧ v ≠ "" ∧
        v ≠ "list" ∧ v ≠ "add" ∧ v ≠ "findById" ∧ v ≠ "remove") →
      (Perform J w args writer).writer = writer ∧ (Perform J w args writer).world = w) := by
  have hback : (¬ args.missing FileNameFlag ∧ args OperationFlag = some v ∧ v ≠ "" ∧
        v ≠ "list" ∧ v ≠ "add" ∧ v ≠ "findById" ∧ v ≠ "remove") →
      Perform J w args writer
        = ⟨some (.fmt ("Operation " ++ v ++ " not allowed!")), writer, w⟩ := by
    rintro ⟨hf, hop, hne, h1, h2, h3, h4⟩
    obtain ⟨f, hf1, hf2⟩ := (not_missing_iff args FileNameFlag).mp hf
    rw [Perform_dispatch J w args writer f v hf1 hf2 hop hne]
    have e1 : ¬ v = ListOperation := h1
    have e2 : ¬ v = AddOperation := h2
    have e3 : ¬ v = FindByIdOperation := h3
    have e4 : ¬ v = RemoveOperation := h4
    rw [if_neg e1, if_neg e2, if_neg e3, if_neg e4, errorf_invalidOperation]
  refine ⟨⟨?_, fun h => by rw [hback h]⟩, fun h => by rw [hback h]; exact ⟨rfl, rfl⟩⟩
  intro herr
  by_cases hf : args.missing FileNameFlag
  · rw [Perform_no_fileName J w args writer hf] at herr
    have h2 := noFlag_ne_invalidOperation FileNameFlag v
    rw [errorf_noFlag] at h2
    simp only [Option.some.injEq, Error.fmt.injEq] at herr
    exact absurd herr h2
  by_cases ho : args.missing OperationFlag
  · rw [Perform_no_operation J w args writer hf ho] at herr
    have h2 := noFlag_ne_invalidOperation OperationFlag v
    rw [errorf_noFlag] at h2
    simp only [Option.some.injEq, Error.fmt.injEq] at herr
    exact absurd herr h2
  obtain ⟨f, hf1, hf2⟩ := (not_missing_iff args FileNameFlag).mp hf
  obtain ⟨op, ho1, ho2⟩ := (not_missing_iff args OperationFlag).mp ho
  rw [Perform_dispatch J w args writer f op hf1 hf2 ho1 ho2] at herr
  have hnf : ∀ flag, some (Error.fmt (fmt.Errorf ErrorNoFlag flag))
      ≠ some (Error.fmt ("Operation " ++ v ++ " not allowed!")) := by
    intro flag h
    simp only [Option.some.injEq, Error.fmt.injEq] at h
    exact noFlag_ne_invalidOperation flag v h
  split at herr
  · exact absurd herr (operationList_not_fmt _ _ _ _)
  split at herr
  · split at herr
    · exact absurd herr (hnf _)
    · exact absurd herr (operationAdd_not_fmt _ _ _ _ _ _)
  split at herr
  · split at herr
    · exact absurd herr (hnf _)
    · exact absurd herr (PerformFindById_not_fmt _ _ _ _ _ _)
  split at herr
  · split at herr
    · exact absurd herr (hnf _)
    · exact absurd herr (operationRemove_not_fmt _ _ _ _ _ _)
  rename_i e1 e2 e3 e4
  rw [errorf_invalidOperation] at herr
  simp only [Option.some.injEq, Error.fmt.injEq] at herr
  have hv : op = v := invalidOperation_inj op v herr
  subst hv
  exact ⟨hf, ho1, ho2, e1, e2, e3, e4⟩

/-- C8: with a non-empty `fileName`, `Perform` for `add` without a non-empty
`item` flag returns the missing-flag error naming `item`, and for `findById` or
`remove` without a non-empty `id` flag the one naming `id`; in each case nothing
is written and the file system, with its log of calls, is as before.  For
`list` the handler `operationList` runs whatever the other flags are. -/
theorem Perform_required_flag (J : Json) (w : World) (args : Arguments)
    (writer f : String)
    (hf : args FileNameFlag = some f) (hfne : f ≠ "") :
    (args OperationFlag = some "add" → args.missing ItemFlag →
      Perform J w args writer
        = ⟨some (.fmt "-item flag has to be specified"), writer, w⟩) ∧
    (args OperationFlag = some "findById" → args.missing IdFlag →
      Perform J w args writer
        = ⟨some (.fmt "-id flag has to be specified"), writer, w⟩) ∧
    (args OperationFlag = some "remove" → args.missing IdFlag →
      Perform J w args writer
        = ⟨some (.fmt "-id flag has to be specified"), writer, w⟩) ∧
    (args OperationFlag = some "list" →
      Perform J w args writer = operationList w f writer) := by
  refine ⟨?_, ?_, ?_, ?_⟩
  · intro hop hm
    rw [Perform_dispatch J w args writer f "add" hf hfne hop (by decide)]
    have hp := (isArgsPresent_eq_false args ItemFlag).mpr hm
    simp only [hp]
    rw [errorf_noFlag]
    rfl
  · intro hop hm
    rw [Perform_dispatch J w args writer f "findById" hf hfne hop (by decide)]
    have hp := (isArgsPresent_eq_false args IdFlag).mpr hm
    simp only [hp]
    rw [errorf_noFlag]
    rfl
  · intro hop hm
    rw [Perform_dispatch J w args writer f "remove" hf hfne hop (by decide)]
    have hp := (isArgsPresent_eq_false args IdFlag).mpr hm
    simp only [hp]
    rw [errorf_noFlag]
    rfl
  · intro hop
    rw [Perform_dispatch J w args writer f "list" hf hfne hop (by decide)]
    rfl

/-! ## The claims on sample data -/

theorem add_then_findById_roundtrip_witness :
    refJson.unmarshalItem aliceJson = .ok alice ∧
    emptyDisk.files "users.json" = .absent ∧
    (PerformFindById refJson (operationAdd refJson emptyDisk "users.json" aliceJson "").world
      "users.json" "1" (operationAdd refJson emptyDisk "users.json" aliceJson "").writer).writer
        = "" ++ refJson.marshalItem alice :=
  ⟨rfl, rfl, (add_then_findById_roundtrip refJson refJson_lawful emptyDisk "users.json"
    aliceJson "" alice rfl (Or.inr rfl)).2.2.2.2.2⟩

theorem operationAdd_duplicate_witness :
    (diskWith usersJson).files "users.json" = .file usersJson ∧
    refJson.unmarshalItems usersJson = .ok [alice, bob] ∧
    refJson.unmarshalItem aliceJson = .ok alice ∧
    (operationAdd refJson (diskWith usersJson) "users.json" aliceJson "").writer
      = "" ++ ("Item with id " ++ "1" ++ " already exists") :=
  ⟨rfl, rfl, rfl, (operationAdd_duplicate refJson refJson_lawful (diskWith usersJson)
    "users.json" aliceJson "" usersJson "1" alice [alice, bob] rfl rfl
    ⟨alice, List.mem_cons_self _ _, rfl⟩ rfl rfl).2.2⟩

theorem operationRemove_present_once_witness :
    (diskWith usersJson).files "users.json" = .file usersJson ∧
    refJson.unmarshalItems usersJson = .ok [alice, bob] ∧
    ([alice, bob].map Item.Id).count "1" = 1 ∧
    (operationRemove refJson (diskWith usersJson) "users.json" "1" "").err = none :=
  ⟨rfl, rfl, by decide, (operationRemove_present_once refJson refJson_lawful
    (diskWith usersJson) "users.json" "1" "" usersJson [alice, bob] rfl rfl (by decide)).1⟩

/-- C4 as stated fails: on a file whose content is not a JSON array,
`operationRemove` returns the decoding error and writes no message, although the
identifier occurs nowhere in the file. -/
theorem operationRemove_undecodable_counterexample :
    (diskWith "oops").files "users.json" = .file "oops" ∧
    (operationRemove refJson (diskWith "oops") "users.json" "1" "").err ≠ none ∧
    (operationRemove refJson (diskWith "oops") "users.json" "1" "").writer
      ≠ "Item with id 1 not found" :=
  ⟨rfl, by decide, by decide⟩

theorem operationRemove_absent_id_witness :
    (diskWith usersJson).files "users.json" = .file usersJson ∧
    refJson.unmarshalItems usersJson = .ok [alice, bob] ∧
    (∀ y ∈ [alice, bob], y.Id ≠ "7") ∧
    (operationRemove refJson (diskWith usersJson) "users.json" "7" "").writer
      = "" ++ ("Item with id " ++ "7" ++ " not found") :=
  ⟨rfl, rfl, by decide, (operationRemove_absent_id refJson (diskWith usersJson)
    "users.json" "7" "" usersJson [alice, bob] rfl rfl (by decide)).2.2.2⟩

theorem PerformFindById_first_match_witness :
    (diskWith usersJson).files "users.json" = .file usersJson ∧
    refJson.unmarshalItems usersJson = .ok [alice, bob] ∧
    (PerformFindById refJson (diskWith usersJson) "users.json" "2" "").err = none :=
  ⟨rfl, rfl, (PerformFindById_first_match refJson (diskWith usersJson)
    "users.json" "2" "" usersJson [alice, bob] rfl rfl).1⟩

theorem Perform_missing_global_flag_witness :
    (argsOf [("operation", "list")]).missing FileNameFlag ∧
    (Perform refJson (diskWith usersJson) (argsOf [("operation", "list")]) "").err
      = some (.fmt "-fileName flag has to be specified") :=
  ⟨Or.inl rfl, (Perform_missing_global_flag refJson (diskWith usersJson)
    (argsOf [("operation", "list")]) "" (Or.inl (Or.inl rfl))).1 (Or.inl rfl)⟩

theorem Perform_invalid_operation_witness :
    (Perform refJson (diskWith usersJson)
      (argsOf [("fileName", "users.json"), ("operation", "abcd")]) "").err
        = some (.fmt ("Operation " ++ "abcd" ++ " not allowed!")) :=
  (Perform_invalid_operation refJson (diskWith usersJson)
    (argsOf [("fileName", "users.json"), ("operation", "abcd")]) "" "abcd").1.mpr
    ⟨by simp [Arguments.missing, argsOf, FileNameFlag, List.lookup], rfl,
      by decide, by decide, by decide, by decide, by decide⟩

theorem Perform_required_flag_witness :
    argsOf [("fileName", "users.json"), ("operation", "add")] FileNameFlag
      = some "users.json" ∧
    "users.json" ≠ "" ∧
    Perform refJson (diskWith usersJson)
      (argsOf [("fileName", "users.json"), ("operation", "add")]) ""
        = ⟨some (.fmt "-item flag has to be specified"), "", diskWith usersJson⟩ :=
  ⟨rfl, by decide, (Perform_required_flag refJson (diskWith usersJson)
    (argsOf [("fileName", "users.json"), ("operation", "add")]) "" "users.json" rfl
    (by decide)).1 rfl (Or.inl rfl)⟩

theorem unique_ids_preserved_witness :
    (diskWith usersJson).files "users.json" = .file usersJson ∧
    refJson.unmarshalItems usersJson = .ok [alice, bob] ∧
    refJson.unmarshalItem carolJson = .ok carol ∧
    ([alice, bob].map Item.Id).Nodup ∧
    (([alice, bob] ++ [carol]).map Item.Id).Nodup :=
  ⟨rfl, rfl, rfl, by decide, ((unique_ids_preserved refJson refJson_lawful
    (diskWith usersJson) "users.json" carolJson "1" "" usersJson carol [alice, bob] rfl rfl
    rfl (by decide)).1 (by decide)).2⟩

theorem operationAdd_appends_witness :
    (diskWith usersJson).files "users.json" = .file usersJson ∧
    refJson.unmarshalItems usersJson = .ok [alice, bob] ∧
    refJson.unmarshalItem carolJson = .ok carol ∧
    (∀ y ∈ [alice, bob], y.Id ≠ carol.Id) ∧
    (operationAdd refJson (diskWith usersJson) "users.json" carolJson "").world.files
      "users.json" = .file (usersJson ++ refJson.marshalItems ([alice, bob] ++ [carol])) :=
  ⟨rfl, rfl, rfl, by decide, (operationAdd_appends refJson refJson_lawful
    (diskWith usersJson) "users.json" carolJson "" usersJson carol [alice, bob] rfl
    (Or.inr rfl) rfl (by decide)).2.2.1⟩

/-- On an empty file `operationRemove` fails in decoding, where `operationAdd`
takes the empty content for the empty sequence. -/
theorem operationRemove_empty_file (J : Json) (hJ : J.Lawful) (w : World)
    (fileName id writer : String) (hfile : w.files fileName = .file "") :
    (∃ msg, (operationRemove J w fileName id writer).err = some (.json msg)) ∧
    (operationRemove J w fileName id writer).writer = writer := by
  have hc : (w.log (Event.openFile fileName)).content fileName = "" :=
    content_of_file w fileName "" hfile
  unfold operationRemove
  simp only [openFile_file w fileName "" hfile, readAll_start, hc]
  cases hdec : J.unmarshalItems "" with
  | error msg => exact ⟨⟨msg, rfl⟩, rfl⟩
  | ok s => exact absurd hdec (hJ.empty_input s)

/-! ## Further facts about the program -/

/-- When several records carry the identifier, `operationRemove` deletes the
last of them: the loop has no early exit. -/
theorem operationRemove_last_occurrence (J : Json) (w : World)
    (fileName id writer c : String) (s : List Item)
    (hfile : w.files fileName = .file c)
    (hdec : J.unmarshalItems c = .ok s)
    (hmem : ∃ y ∈ s, y.Id = id) :
    ∃ pre x post, s = pre ++ x :: post ∧ x.Id = id ∧ (∀ y ∈ post, y.Id ≠ id) ∧
      (operationRemove J w fileName id writer).world.files fileName
        = .file (J.marshalItems (pre ++ post)) := by
  obtain ⟨pre, x, post, hs, hx, hpost⟩ := exists_last id s hmem
  subst hs
  exact ⟨pre, x, post, rfl, hx, hpost,
    (operationRemove_found J w fileName id writer c pre post x hfile hdec hx hpost).2.2.1⟩

set_option maxRecDepth 100000 in
/-- A second `operationAdd` writes its array after the first one, and the file
no longer decodes: `PerformFindById` then returns the decoding error. -/
theorem operationAdd_twice_example :
    (operationAdd refJson (operationAdd refJson (diskWith "") "users.json" aliceJson "").world
      "users.json" carolJson "").world.files "users.json"
      = .file ("[" ++ aliceJson ++ "]" ++ ("[" ++ aliceJson ++ "," ++ carolJson ++ "]")) ∧
    (PerformFindById refJson
      (operationAdd refJson (operationAdd refJson (diskWith "") "users.json" aliceJson "").world
        "users.json" carolJson "").world "users.json" "1" "").err
      = some (.json "invalid JSON input") := by
  constructor <;> rfl

set_option maxRecDepth 100000 in
/-- The example of the specification, run through `Perform`: add a record to an
empty file, list, add the same identifier again, remove it, list. -/
theorem Perform_example :
    (Perform refJson
      (Perform refJson (diskWith "")
        (argsOf [("fileName", "users.json"), ("operation", "add"), ("item", aliceJson)])
        "").world
      (argsOf [("fileName", "users.json"), ("operation", "list")]) "").writer
      = "[" ++ aliceJson ++ "]" ∧
    (Perform refJson
      (Perform refJson (diskWith "")
        (argsOf [("fileName", "users.json"), ("operation", "add"), ("item", aliceJson)])
        "").world
      (argsOf [("fileName", "users.json"), ("operation", "add"), ("item", aliceJson)])
      "").writer
      = "Item with id 1 already exists" ∧
    (Perform refJson
      (Perform refJson
        (Perform refJson (diskWith "")
          (argsOf [("fileName", "users.json"), ("operation", "add"), ("item", aliceJson)])
          "").world
        (argsOf [("fileName", "users.json"), ("operation", "remove"), ("id", "1")]) "").world
      (argsOf [("fileName", "users.json"), ("operation", "list")]) "").writer
      = "[]" := by
  refine ⟨?_, ?_, ?_⟩ <;> rfl

/-- The read-only handlers make exactly one call, `os.ReadFile`. -/
theorem readers_trace (J : Json) (w : World) (fileName id writer : String) :
    (operationList w fileName writer).world.trace = w.trace ++ [.readFile fileName] ∧
    (PerformFindById J w fileName id writer).world.trace
      = w.trace ++ [.readFile fileName] := by
  constructor
  · unfold operationList os.ReadFile
    cases w.files fileName <;> rfl
  · unfold PerformFindById os.ReadFile
    cases w.files fileName with
    | absent => rfl
    | blocked => rfl
    | file c =>
      simp only
      cases J.unmarshalItems c with
      | error msg => rfl
      | ok items =>
        simp only
        cases operationFindById id items <;> rfl

/-- The handler `operationRemove` always calls `os.OpenFile` first. -/
theorem operationRemove_trace (J : Json) (w : World) (fileName id writer : String) :
    ∃ later, (operationRemove J w fileName id writer).world.trace
      = w.trace ++ .openFile fileName :: later := by
  unfold operationRemove os.OpenFile File.ReadAll File.Close File.Write File.Seek0
    File.Truncate0
  cases w.files fileName with
  | blocked => exact ⟨[], rfl⟩
  | absent =>
    simp only
    split
    · exact ⟨[.readAll fileName, .close fileName], by simp [World.log, World.setContent]⟩
    · split
      · exact ⟨[.readAll fileName, .close fileName], by simp [World.log, World.setContent]⟩
      · exact ⟨[.readAll fileName, .truncate fileName, .seek fileName, .write fileName,
          .close fileName], by simp [World.log, World.setContent]⟩
  | file c =>
    simp only
    split
    · exact ⟨[.readAll fileName, .close fileName], by simp [World.log, World.setContent]⟩
    · split
      · exact ⟨[.readAll fileName, .close fileName], by simp [World.log, World.setContent]⟩
      · exact ⟨[.readAll fileName, .truncate fileName, .seek fileName, .write fileName,
          .close fileName], by simp [World.log, World.setContent]⟩

/-- The reference codec on a record with characters that are escaped. -/
theorem refJson_escapes_example :
    refJson.marshalItem ⟨"a<b", "x\ny\"z", ⟨-7, by decide⟩⟩
      = "\x7b\"id\":\"a\\u003cb\",\"email\":\"x\\ny\\\"z\",\"age\":-7\x7d" ∧
    refJson.unmarshalItem
        "\x7b\"id\":\"a\\u003cb\",\"email\":\"x\\ny\\\"z\",\"age\":-7\x7d"
      = .ok ⟨"a<b", "x\ny\"z", ⟨-7, by decide⟩⟩ ∧
    refJson.unmarshalItems "" = .error "unexpected end of JSON input" ∧
    refJson.unmarshalItems "[]" = .ok [] := by
  refine ⟨?_, ?_, ?_, ?_⟩ <;> rfl

/-- With the arguments `parseArgs` builds, `Perform` fails on the first check. -/
theorem Perform_parseArgs (J : Json) (w : World) (writer : String) :
    Perform J w parseArgs writer
      = ⟨some (.fmt "-fileName flag has to be specified"), writer, w⟩ :=
  Perform_no_fileName J w parseArgs writer (Or.inr rfl)

end Homework8
